import Mathlib

set_option maxRecDepth 40000

/-!
Verification of the pagination and reading-position core of the Novel Quest
document-reading client.

The repository ships three variants of the same single-component app:
two in `src/App.jsx` (called variant A, lines 1-802, and variant B,
lines 802-1746, below) and one in `src/unnamed/part_000` (variant C).
All three share the paginator verbatim; the position-restore, auto-save,
rate-limiter and PDF-upload logic differ slightly between variants and the
definitions below name the variant and line range they embed.

Texts are embedded as `List Char` (a JS string is a sequence of characters),
page sequences as `List (List Char)`, times in milliseconds as `Nat`.
-/

namespace NovelQuest

/-! ## Paginator (App.jsx getPages, both variants; part_000 pages memo)

JS source (App.jsx:232-239, identical loop at App.jsx:1115-1122 and
part_000:166-173):

  const words = text.split(/\s+/).filter(Boolean);
  const result = [];
  for (let i = 0; i < words.length; i += WORDS_PER_PAGE) {
    result.push(words.slice(i, i + WORDS_PER_PAGE).join(" "));
  }
  return result.length > 0 ? result : ["(Vault empty. ...)"];
-/

/-- App.jsx:100 / part_000:43: `const WORDS_PER_PAGE = 275`. -/
def WORDS_PER_PAGE : Nat := 275

/-- Tokenizer worker for `text.split(/\s+/).filter(Boolean)`: scans the
characters, accumulating the current word in `acc` (reversed); a whitespace
character ends the current word, and empty tokens are never produced.
The result is the list of maximal nonempty runs of non-whitespace characters,
which is exactly what splitting on runs of whitespace and discarding empty
strings yields. -/
def wordsAux : List Char → List Char → List (List Char)
  | [], acc => if acc = [] then [] else [acc.reverse]
  | c :: cs, acc =>
    if c.isWhitespace then
      if acc = [] then wordsAux cs [] else acc.reverse :: wordsAux cs []
    else
      wordsAux cs (c :: acc)

/-- `text.split(/\s+/).filter(Boolean)` (App.jsx:233 and the two copies). -/
def words (t : List Char) : List (List Char) :=
  wordsAux t []

/-- `arr.join(" ")` on a group of words (App.jsx:236). -/
def joinWords (ws : List (List Char)) : List Char :=
  List.intercalate [' '] ws

/-- Worker for the slicing loop `for (let i = 0; i < words.length; i += n)`:
`acc` is the chunk currently being filled (reversed) and `k` the remaining
capacity of that chunk; when capacity runs out a chunk of `n` elements has
been collected and a fresh chunk is started. -/
def chunksAux (n : Nat) : List α → List α → Nat → List (List α)
  | [], [], _ => []
  | [], a :: acc, _ => [(a :: acc).reverse]
  | x :: xs, acc, 0 => acc.reverse :: chunksAux n xs [x] (n - 1)
  | x :: xs, acc, k + 1 => chunksAux n xs (x :: acc) k

/-- The page-slicing loop of App.jsx:235-237: consecutive groups of `n`
elements in order, the last group possibly shorter; an empty input produces
no groups (the loop body never runs). -/
def chunksOf (n : Nat) (l : List α) : List (List α) :=
  chunksAux n l [] n

/-- The placeholder page for a wordless document (App.jsx:238). Variant B
and variant C use a differently worded placeholder string; all claims about
the placeholder concern only its presence as the single page, so variant A's
message is used as the representative. -/
def vaultEmptyMsg : List Char :=
  "(Vault empty. Sign in and upload a manuscript to begin analysis.)".toList

/-- `getPages` (App.jsx:232-239): tokenize, slice into groups of
`WORDS_PER_PAGE` words, join each group with single spaces; if no page
results, a single placeholder page is returned. -/
def getPages (text : List Char) : List (List Char) :=
  let result := (chunksOf WORDS_PER_PAGE (words text)).map joinWords
  if result.length > 0 then result else [vaultEmptyMsg]

/-! ## Position restore targets (claim C4)

Variant C restores the last visited page on load (part_000:196-206):

  const savedPage = Number(localStorage.getItem('nq_page')) || 0;
  const safePage = Math.min(savedPage, pages.length - 1);
  setTimeout(() => { scrollToPage(safePage); ... }, 800);

Variant B does the same clamping at App.jsx:1198-1202
(`Math.min(currentPage, pages.length - 1)`).

Variant A's Firestore restore (App.jsx:272-297) issues
`scrollToPage(data.page || 0)` with no clamping at all.
-/

/-- The clamped scroll target of the localStorage restore paths
(part_000:200, App.jsx:1200): `Math.min(savedPage, pages.length - 1)`
computed against the pages of the current text. -/
def safeRestorePage (savedPage : Nat) (t : List Char) : Nat :=
  min savedPage ((getPages t).length - 1)

/-- The scroll target of variant A's Firestore restore (App.jsx:286):
`data.page || 0` is passed to `scrollToPage` unclamped (a missing field
defaults to 0). -/
def firestoreRestoreTarget (savedPage : Option Nat) : Nat :=
  savedPage.getD 0

/-! ## Debounced remote position auto-save (claims C5, C6)

App.jsx:304-322: an effect keyed on (currentPage, currentDocId, user,
isRestoring, currentDocName) arms a 2000 ms timer whose callback writes
(docId, docName, page, timestamp) to the remote store; the effect's
cleanup (`clearTimeout`) runs before the next arming and on unmount.

The embedding models one signed-in, non-restoring session as the ordered
sequence of effect runs: each run carries the time it occurs and the
document id and page index captured by the timer's closure at that moment.
A timer fires `QUIET_INTERVAL` after its arming unless a later effect run
occurs first (its cleanup cancels the pending timer) or the session ends
before the fire time (unmount cleanup cancels it). The UI thread processes
events in arrival order, so arming, cancellation and firing never
interleave. -/

/-- App.jsx:320: the `setTimeout(..., 2000)` quiet interval in ms. -/
def QUIET_INTERVAL : Nat := 2000

/-- One run of the auto-save effect: the ms time it occurs, and the document
id and page index captured for the scheduled write. -/
structure PosEvent where
  time : Nat
  docId : Nat
  page : Nat
deriving DecidableEq

/-- One remote position write that actually fires: the ms time at which the
`setDoc` call is issued, and the document id and page index it carries. -/
structure PosWrite where
  time : Nat
  docId : Nat
  page : Nat
deriving DecidableEq

/-- The remote writes produced by a session whose auto-save effect runs are
`evs` (ordered by time) and which ends (unmount) at `endTime`: each run arms
a timer for `time + QUIET_INTERVAL`; the timer is cancelled by the cleanup of
the next run if that run occurs before the fire time, and by the unmount
cleanup if the session ends before the fire time. -/
def autosaveWrites (endTime : Nat) : List PosEvent → List PosWrite
  | [] => []
  | [e] =>
    if e.time + QUIET_INTERVAL ≤ endTime then
      [⟨e.time + QUIET_INTERVAL, e.docId, e.page⟩]
    else []
  | e :: e2 :: rest =>
    if e2.time < e.time + QUIET_INTERVAL then
      autosaveWrites endTime (e2 :: rest)
    else if e.time + QUIET_INTERVAL ≤ endTime then
      ⟨e.time + QUIET_INTERVAL, e.docId, e.page⟩ :: autosaveWrites endTime (e2 :: rest)
    else
      autosaveWrites endTime (e2 :: rest)

/-- The document active at instant `t`: the id carried by the latest effect
run strictly before `t` (state changes processed before `t` are visible at
`t`). -/
def activeDocAt (evs : List PosEvent) (t : Nat) : Option Nat :=
  ((evs.filter fun e => e.time < t).getLast?).map PosEvent.docId

/-! ## Reading-session state machine (claim C8)

Variant B keeps the session in React state restored from localStorage:
  - `currentPage` initializer (App.jsx:891-898): `Number(saved) || 0`,
    unvalidated against the restored text's page count;
  - IntersectionObserver (App.jsx:1184-1195): sets `currentPage` to the
    `data-page-index` of an intersecting page element; rendered page
    elements carry exactly the indices 0 .. pages.length-1;
  - `loadFromLibrary` (App.jsx:1230-1237): replaces the text and document
    id, leaving `currentPage` untouched (only the scroll is reset);
  - `deleteFromLibrary` (App.jsx:1240-1254): when the deleted id is the
    current document, clears the text and the stored document id
    (`localStorage.removeItem('novelQuestCurrentDocId')`), leaving
    `currentPage` untouched.
-/

/-- The in-memory session state (mirrored to localStorage on every change by
the persistence effect at App.jsx:920-932). -/
structure RState where
  text : List Char
  docId : Option Nat
  page : Nat
deriving DecidableEq

/-- The session events that touch the reading position. -/
inductive REvent where
  /-- An IntersectionObserver callback for the page element with index
  `idx`; observed elements are the rendered pages, so `idx` is always below
  the current page count (out-of-range indices are impossible and modelled
  as no-ops). -/
  | observe (idx : Nat)
  /-- `loadFromLibrary` for a stored source. -/
  | load (id : Nat) (content : List Char)
  /-- `deleteFromLibrary` for the source with id `id`. -/
  | delete (id : Nat)
deriving DecidableEq

/-- One step of the session (the cited handlers, App.jsx variant B). -/
def step (s : RState) : REvent → RState
  | .observe idx =>
    if idx < (getPages s.text).length then { s with page := idx } else s
  | .load id content => { text := content, docId := some id, page := s.page }
  | .delete id =>
    if s.docId = some id then { text := [], docId := none, page := s.page }
    else s

/-- Session start (App.jsx:865-898): text, document id and page index are
read back from localStorage, which holds whatever a previous session
persisted; the page index is `Number(saved) || 0` with no range check. -/
def initState (savedText : List Char) (savedDocId : Option Nat) (savedPage : Nat) : RState :=
  ⟨savedText, savedDocId, savedPage⟩

/-- A whole session: the initial (restored) state driven by a list of
events. -/
def runSession (s : RState) (evs : List REvent) : RState :=
  evs.foldl step s

/-! ## Client-side AI rate limiter (claim C9)

App.jsx:845 and 975-1002 (variant B):

  const AI_CALL_DELAY = 1500;
  const callAi = async (...) => {
    const now = Date.now();
    const timeSinceLastCall = now - lastAiCall;
    if (timeSinceLastCall < AI_CALL_DELAY) {
      const waitSec = Math.ceil((AI_CALL_DELAY - timeSinceLastCall) / 1000);
      ... return `Please wait ...`;            // no fetch
    }
    if (!GEMINI_API_KEY) { ... return ...; }   // no fetch
    if (!text.trim()) { ... return ...; }      // no fetch
    setIsAiLoading(true);
    setLastAiCall(now);
    ... await fetch(...)                       // the outbound API request
  };

Note that `lastAiCall` is updated only on invocations that pass all three
guards; rejected invocations leave it unchanged. -/

/-- App.jsx:845: minimum ms between accepted API calls. -/
def AI_CALL_DELAY : Nat := 1500

/-- What one `callAi` invocation does before (or instead of) the network
request. -/
inductive AiOutcome where
  /-- The rate-limit branch: no fetch, a wait message quoting `waitSec`
  seconds is returned. -/
  | rateLimited (waitSec : Nat)
  /-- `!GEMINI_API_KEY`: no fetch. -/
  | missingKey
  /-- `!text.trim()`: no fetch. -/
  | noDocument
  /-- All guards passed: the outbound request is made. -/
  | request
deriving DecidableEq

/-- The rate-limiter state: the `lastAiCall` timestamp (initially 0). -/
structure AiSession where
  lastAiCall : Nat
deriving DecidableEq

/-- The guard section of `callAi` (App.jsx:975-1002) at wall-clock time
`now`, with `hasKey` standing for a configured `GEMINI_API_KEY` and
`hasText` for a loaded document: returns the outcome and the updated
`lastAiCall` state. `Math.ceil(waitMs / 1000)` is `(waitMs + 999) / 1000`
on naturals. -/
def callAi (hasKey hasText : Bool) (now : Nat) (s : AiSession) : AiOutcome × AiSession :=
  let timeSinceLastCall := now - s.lastAiCall
  if timeSinceLastCall < AI_CALL_DELAY then
    (.rateLimited ((AI_CALL_DELAY - timeSinceLastCall + 999) / 1000), s)
  else if !hasKey then (.missingKey, s)
  else if !hasText then (.noDocument, s)
  else (.request, ⟨now⟩)

/-- A sequence of `callAi` invocations at the given (nondecreasing) times,
threading the limiter state; returns the outcomes in order. -/
def runCalls (hasKey hasText : Bool) (s : AiSession) : List Nat → List AiOutcome
  | [] => []
  | t :: ts =>
    let r := callAi hasKey hasText t s
    r.1 :: runCalls hasKey hasText r.2 ts

/-! ## PDF upload page cap (claim C10)

Variant B's `handleFileUpload` (App.jsx:1257-1296):

  for (let i = 1; i <= Math.min(pdf.numPages, 50); i++) {
    const page = await pdf.getPage(i);
    const textContent = await page.getTextContent();
    fullText += textContent.items.map(item => item.str).join(' ') + '\n';
  }

Variant C (part_000:261-284) is identical with a cap of 100. (Variant A,
App.jsx:369-397, loops over all pages with no cap; the claim is about the
two capped variants it cites.) A PDF is embedded as the list of its pages,
each page being the list of its text items' strings. -/

/-- The text `handleFileUpload` accumulates in `fullText`: the first
`min(numPages, cap)` pages, each contributing its items joined with single
spaces plus a newline. -/
def extractedPdfText (cap : Nat) (pdfPages : List (List (List Char))) : List Char :=
  ((pdfPages.take cap).map fun items => joinWords items ++ ['\n']).flatten

/-- A 700-word text: 700 one-letter words separated by single spaces. -/
def text700 : List Char :=
  List.intercalate [' '] (List.replicate 700 ['w'])

/-- A 2000-word text, which paginates to 8 pages (2000 = 7 * 275 + 75). -/
def text2000 : List Char :=
  List.intercalate [' '] (List.replicate 2000 ['w'])

/-! ## Tokenizer lemmas -/

/-- Scanning a block of non-whitespace characters just extends the
accumulator. -/
theorem wordsAux_append_nonws (w : List Char) (hw : ∀ c ∈ w, c.isWhitespace = false) :
    ∀ (t acc : List Char), wordsAux (w ++ t) acc = wordsAux t (w.reverse ++ acc) := by
  induction w with
  | nil => intro t acc; simp
  | cons c w ih =>
    intro t acc
    have hc : c.isWhitespace = false := hw c (by simp)
    have hw' : ∀ x ∈ w, x.isWhitespace = false := fun x hx => hw x (by simp [hx])
    have h1 : wordsAux ((c :: w) ++ t) acc = wordsAux (w ++ t) (c :: acc) := by
      rw [List.cons_append]
      simp [wordsAux, hc]
    rw [h1, ih hw' t (c :: acc)]
    simp

/-- Scanning a whitespace character flushes the accumulator. -/
theorem wordsAux_ws_cons (c : Char) (hc : c.isWhitespace = true) (t acc : List Char) :
    wordsAux (c :: t) acc =
      if acc = [] then wordsAux t [] else acc.reverse :: wordsAux t [] := by
  simp [wordsAux, hc]

/-- A single word (nonempty, whitespace-free) tokenizes to itself. -/
theorem words_single (w : List Char) (hne : w ≠ [])
    (hw : ∀ c ∈ w, c.isWhitespace = false) : words w = [w] := by
  have h := wordsAux_append_nonws w hw [] []
  simp only [List.append_nil] at h
  unfold words
  rw [h]
  simp [wordsAux, hne]

/-- A word followed by a space tokenizes to the word followed by the rest's
tokens. -/
theorem words_word_space (w t : List Char) (hne : w ≠ [])
    (hw : ∀ c ∈ w, c.isWhitespace = false) :
    words (w ++ ' ' :: t) = w :: words t := by
  unfold words
  rw [wordsAux_append_nonws w hw (' ' :: t) [], List.append_nil,
    wordsAux_ws_cons ' ' (by decide) t w.reverse]
  simp [hne]

/-- Every token is a nonempty whitespace-free run. -/
theorem words_good (t : List Char) :
    ∀ w ∈ words t, w ≠ [] ∧ ∀ c ∈ w, c.isWhitespace = false := by
  suffices h : ∀ (t acc : List Char), (∀ c ∈ acc, c.isWhitespace = false) →
      ∀ w ∈ wordsAux t acc, w ≠ [] ∧ ∀ c ∈ w, c.isWhitespace = false by
    exact h t [] (by simp)
  intro t
  induction t with
  | nil =>
    intro acc hacc w hwmem
    by_cases h : acc = [] <;> simp [wordsAux, h] at hwmem
    subst hwmem
    refine ⟨by simpa using h, fun c hc => hacc c (by simpa using hc)⟩
  | cons c cs ih =>
    intro acc hacc w hwmem
    by_cases hc : c.isWhitespace = true
    · rw [wordsAux_ws_cons c hc cs acc] at hwmem
      by_cases h : acc = []
      · simp only [h, if_true] at hwmem
        exact ih [] (by simp) w hwmem
      · simp only [h, if_false] at hwmem
        rcases List.mem_cons.mp hwmem with rfl | hwmem
        · refine ⟨by simpa using h, fun x hx => hacc x (by simpa using hx)⟩
        · exact ih [] (by simp) w hwmem
    · rw [Bool.not_eq_true] at hc
      simp only [wordsAux, hc, Bool.false_eq_true, if_false] at hwmem
      refine ih (c :: acc) ?_ w hwmem
      intro x hx
      rcases List.mem_cons.mp hx with rfl | hx
      · exact hc
      · exact hacc x hx

/-- The tokenizer produces nothing exactly on whitespace-only input. -/
theorem words_eq_nil_iff (t : List Char) :
    words t = [] ↔ ∀ c ∈ t, c.isWhitespace = true := by
  suffices h : ∀ (t acc : List Char),
      wordsAux t acc = [] ↔ acc = [] ∧ ∀ c ∈ t, c.isWhitespace = true by
    unfold words
    rw [h t []]
    simp
  intro t
  induction t with
  | nil =>
    intro acc
    by_cases h : acc = [] <;> simp [wordsAux, h]
  | cons c cs ih =>
    intro acc
    by_cases hc : c.isWhitespace = true
    · rw [wordsAux_ws_cons c hc cs acc]
      by_cases h : acc = [] <;> simp [h, ih, hc]
    · rw [Bool.not_eq_true] at hc
      simp only [wordsAux, hc, Bool.false_eq_true, if_false]
      rw [ih (c :: acc)]
      simp [hc]

/-- Tokenizing a single-space join of nonempty whitespace-free words gives
the words back. -/
theorem words_joinWords (ws : List (List Char))
    (h : ∀ w ∈ ws, w ≠ [] ∧ ∀ c ∈ w, c.isWhitespace = false) :
    words (joinWords ws) = ws := by
  induction ws with
  | nil => simp [joinWords, List.intercalate, words, wordsAux]
  | cons w ws ih =>
    rcases ws with _ | ⟨x, ws⟩
    · have hw := h w (by simp)
      simpa [joinWords, List.intercalate] using words_single w hw.1 hw.2
    · have hw := h w (by simp)
      have hrest : joinWords (w :: x :: ws) = w ++ ' ' :: joinWords (x :: ws) := by
        simp [joinWords, List.intercalate, List.intersperse_cons_cons]
      rw [hrest, words_word_space w _ hw.1 hw.2,
        ih fun u hu => h u (List.mem_cons_of_mem w hu)]

/-! ## Chunking lemmas -/

theorem chunksOf_nil (n : Nat) : chunksOf n ([] : List α) = [] := by
  cases n <;> rfl

/-- Characterization of the worker: with something pending (a nonempty
accumulator or remaining input), the next emitted chunk is the accumulator
completed with the next `k` elements, and the rest restarts cleanly. -/
theorem chunksAux_eq (n : Nat) (hn : 0 < n) :
    ∀ (l acc : List α) (k : Nat), acc ≠ [] ∨ l ≠ [] →
      chunksAux n l acc k = (acc.reverse ++ l.take k) :: chunksOf n (l.drop k) := by
  intro l
  induction l with
  | nil =>
    intro acc k h
    rcases acc with _ | ⟨a, acc⟩
    · simp at h
    · simp [chunksAux, chunksOf_nil]
  | cons x xs ih =>
    intro acc k h
    rcases k with _ | k
    · rcases n with _ | m
      · omega
      · simp only [List.take_zero, List.drop_zero, List.append_nil]
        show acc.reverse :: chunksAux (m + 1) xs [x] (m + 1 - 1) =
          acc.reverse :: chunksOf (m + 1) (x :: xs)
        rw [show chunksOf (m + 1) (x :: xs) = chunksAux (m + 1) xs [x] m from rfl]
        norm_num
    · rw [show chunksAux n (x :: xs) acc (k + 1) = chunksAux n xs (x :: acc) k from rfl,
        ih (x :: acc) k (Or.inl (by simp))]
      simp

/-- The unfolding step of the slicing loop: a nonempty input yields its
first `n` elements as a page and recurses on the rest. -/
theorem chunksOf_cons (n : Nat) (hn : 0 < n) (l : List α) (hl : l ≠ []) :
    chunksOf n l = l.take n :: chunksOf n (l.drop n) := by
  rw [chunksOf, chunksAux_eq n hn l [] n (Or.inr hl)]
  simp

/-- Concatenating the chunks gives back the input. -/
theorem flatten_chunksOf (n : Nat) (hn : 0 < n) (l : List α) :
    (chunksOf n l).flatten = l := by
  by_cases hl : l = []
  · subst hl; simp [chunksOf_nil]
  · rw [chunksOf_cons n hn l hl, List.flatten_cons,
      flatten_chunksOf n hn (l.drop n), List.take_append_drop]
termination_by l.length
decreasing_by
  simp only [List.length_drop]
  have : l.length ≠ 0 := fun h => hl (List.eq_nil_of_length_eq_zero h)
  omega

/-- The number of chunks is the length divided by `n`, rounded up. -/
theorem length_chunksOf (n : Nat) (hn : 0 < n) (l : List α) :
    (chunksOf n l).length = (l.length + (n - 1)) / n := by
  by_cases hl : l = []
  · subst hl
    simp only [chunksOf_nil, List.length_nil, Nat.zero_add]
    rw [Nat.div_eq_of_lt (by omega)]
  · rw [chunksOf_cons n hn l hl, List.length_cons,
      length_chunksOf n hn (l.drop n), List.length_drop]
    have hpos : 0 < l.length := List.length_pos.mpr hl
    by_cases hge : n ≤ l.length
    · have h1 : l.length + (n - 1) = (l.length - n + (n - 1)) + n := by omega
      rw [h1, Nat.add_div_right _ hn]
    · have h1 : l.length - n = 0 := by omega
      rw [h1]
      have h2 : (0 + (n - 1)) / n = 0 := Nat.div_eq_of_lt (by omega)
      have h3 : (l.length + (n - 1)) / n = 1 :=
        Nat.div_eq_of_lt_le (by omega) (by omega)
      omega
termination_by l.length
decreasing_by
  simp only [List.length_drop]
  have : l.length ≠ 0 := fun h => hl (List.eq_nil_of_length_eq_zero h)
  omega

/-- The `i`-th chunk consists of the `n` input elements starting at
position `n * i` (fewer if the input ends sooner, none if it is
exhausted). -/
theorem getD_chunksOf (n : Nat) (hn : 0 < n) :
    ∀ (i : Nat) (l : List α), (chunksOf n l).getD i [] = (l.drop (n * i)).take n := by
  intro i
  induction i with
  | zero =>
    intro l
    by_cases hl : l = []
    · subst hl; simp [chunksOf_nil]
    · rw [chunksOf_cons n hn l hl]
      simp
  | succ i ih =>
    intro l
    by_cases hl : l = []
    · subst hl; simp [chunksOf_nil]
    · rw [chunksOf_cons n hn l hl, List.getD_cons_succ, ih (l.drop n),
        List.drop_drop]
      have h1 : n + n * i = n * (i + 1) := by ring
      rw [h1]

/-- Chunk elements come from the input. -/
theorem mem_of_mem_chunksOf (n : Nat) (hn : 0 < n) :
    ∀ (l : List α) (c : List α), c ∈ chunksOf n l → ∀ x ∈ c, x ∈ l := by
  intro l
  by_cases hl : l = []
  · subst hl
    simp [chunksOf_nil]
  · intro c hc x hx
    rw [chunksOf_cons n hn l hl] at hc
    rcases List.mem_cons.mp hc with rfl | hc
    · exact List.take_subset n l hx
    · exact List.drop_subset n l (mem_of_mem_chunksOf n hn (l.drop n) c hc x hx)
termination_by l => l.length
decreasing_by
  simp only [List.length_drop]
  have : l.length ≠ 0 := fun h => hl (List.eq_nil_of_length_eq_zero h)
  omega

/-- The slicing loop produces no chunks exactly on empty input. -/
theorem chunksOf_eq_nil_iff (n : Nat) (hn : 0 < n) (l : List α) :
    chunksOf n l = [] ↔ l = [] := by
  constructor
  · intro h
    by_contra hl
    rw [chunksOf_cons n hn l hl] at h
    exact List.cons_ne_nil _ _ h
  · intro h
    subst h
    exact chunksOf_nil n

/-! ## getPages lemmas -/

theorem WORDS_PER_PAGE_pos : 0 < WORDS_PER_PAGE := by
  norm_num [WORDS_PER_PAGE]

/-- On input with at least one word the placeholder branch is not taken. -/
theorem getPages_of_words_ne_nil (t : List Char) (h : words t ≠ []) :
    getPages t = (chunksOf WORDS_PER_PAGE (words t)).map joinWords := by
  have hc : ((chunksOf WORDS_PER_PAGE (words t)).map joinWords).length > 0 := by
    simp only [List.length_map]
    exact List.length_pos.mpr fun hh =>
      h ((chunksOf_eq_nil_iff WORDS_PER_PAGE WORDS_PER_PAGE_pos (words t)).mp hh)
  simp only [getPages, hc, if_true]

/-- On wordless input the placeholder branch is taken. -/
theorem getPages_of_words_nil (t : List Char) (h : words t = []) :
    getPages t = [vaultEmptyMsg] := by
  simp [getPages, h, chunksOf_nil]

/-- The paginator never returns zero pages. -/
theorem getPages_ne_nil (t : List Char) : getPages t ≠ [] := by
  by_cases h : words t = []
  · rw [getPages_of_words_nil t h]
    simp
  · rw [getPages_of_words_ne_nil t h]
    simp only [ne_eq, List.map_eq_nil_iff]
    exact fun hh => h ((chunksOf_eq_nil_iff WORDS_PER_PAGE WORDS_PER_PAGE_pos (words t)).mp hh)

/-- `getD` through a `map`, in range. -/
theorem getD_map {α β : Type} (f : α → β) :
    ∀ (l : List α) (i : Nat) (d : α), i < l.length →
      (l.map f).getD i (f d) = f (l.getD i d) := by
  intro l
  induction l with
  | nil => intro i d h; simp at h
  | cons x xs ih =>
    intro i d h
    rcases i with _ | i
    · simp
    · simp only [List.map_cons, List.getD_cons_succ]
      exact ih i d (by simpa using h)

/-! ## Claim C1 -/

/-- C1 (as stated, refuted at the empty text): the claim quantifies over
every input text, but on a wordless text `getPages` returns the placeholder
page, whose words are not the (empty) tokenization of the input. -/
theorem pages_reconstruct_words_cex :
    ((getPages []).map words).flatten ≠ words [] := by
  decide

/-- C1 (amended): for every input text containing at least one word,
concatenating the words of all pages returned by the paginator, in order,
equals the whitespace-tokenized word sequence of the text — word content
and order are reconstructed exactly. -/
theorem pages_reconstruct_words (t : List Char) (h : words t ≠ []) :
    ((getPages t).map words).flatten = words t := by
  rw [getPages_of_words_ne_nil t h, List.map_map]
  have hmap : (chunksOf WORDS_PER_PAGE (words t)).map (words ∘ joinWords)
      = (chunksOf WORDS_PER_PAGE (words t)).map id := by
    apply List.map_congr_left
    intro c hc
    simp only [Function.comp_apply, id_eq]
    exact words_joinWords c fun w hw =>
      words_good t w
        (mem_of_mem_chunksOf WORDS_PER_PAGE WORDS_PER_PAGE_pos (words t) c hc w hw)
  rw [hmap, List.map_id, flatten_chunksOf WORDS_PER_PAGE WORDS_PER_PAGE_pos (words t)]

/-- C1 witness: the amended theorem applied to a one-word text. -/
theorem pages_reconstruct_words_witness :
    words ['a'] ≠ [] ∧ ((getPages ['a']).map words).flatten = words ['a'] :=
  ⟨by decide, pages_reconstruct_words ['a'] (by decide)⟩

/-! ## Claim C2 -/

/-- C2: for every input text with at least one word, `getPages` produces
`ceil(wordCount / 275)` pages; page `i` is exactly the consecutive group of
`WORDS_PER_PAGE` words starting at word `275 * i` (the last group shorter),
joined with single spaces, and carries `min 275 (wordCount - 275 * i)`
words — so a 700-word input produces `(700 + 274) / 275 = 3` pages of
275, 275 and 150 words (evaluated in the witness). -/
theorem pages_partition (t : List Char) (h : words t ≠ []) :
    (getPages t).length = ((words t).length + (WORDS_PER_PAGE - 1)) / WORDS_PER_PAGE
    ∧ ∀ i, i < (getPages t).length →
        (getPages t).getD i [] =
          joinWords (((words t).drop (WORDS_PER_PAGE * i)).take WORDS_PER_PAGE)
        ∧ (words ((getPages t).getD i [])).length =
            min WORDS_PER_PAGE ((words t).length - WORDS_PER_PAGE * i) := by
  have hpages := getPages_of_words_ne_nil t h
  constructor
  · rw [hpages, List.length_map,
      length_chunksOf WORDS_PER_PAGE WORDS_PER_PAGE_pos (words t)]
  · intro i hi
    have hi' : i < (chunksOf WORDS_PER_PAGE (words t)).length := by
      rw [hpages, List.length_map] at hi
      exact hi
    have hjnil : joinWords [] = ([] : List Char) := rfl
    have hgetD : (getPages t).getD i [] =
        joinWords (((words t).drop (WORDS_PER_PAGE * i)).take WORDS_PER_PAGE) := by
      rw [hpages, ← hjnil, getD_map joinWords _ i [] hi',
        getD_chunksOf WORDS_PER_PAGE WORDS_PER_PAGE_pos i (words t)]
    refine ⟨hgetD, ?_⟩
    rw [hgetD]
    have hgood : ∀ w ∈ ((words t).drop (WORDS_PER_PAGE * i)).take WORDS_PER_PAGE,
        w ≠ [] ∧ ∀ c ∈ w, c.isWhitespace = false := fun w hw =>
      words_good t w (List.drop_subset _ _ (List.take_subset _ _ hw))
    rw [words_joinWords _ hgood, List.length_take, List.length_drop]

/-- C2 witness: the theorem applied to a 700-word text; the page count
evaluates to 3 and the three pages carry 275, 275 and 150 words. -/
theorem pages_partition_witness :
    words text700 ≠ []
    ∧ (getPages text700).length = 3
    ∧ (getPages text700).map (fun p => (words p).length) = [275, 275, 150] := by
  refine ⟨by decide, ?_, by decide⟩
  rw [(pages_partition text700 (by decide)).1]
  decide

/-! ## Claim C3 -/

/-- C3: for every input, `getPages` returns a non-empty page sequence, and
for every input with no words (all characters whitespace, including the
empty text) it returns exactly the single fixed placeholder page. -/
theorem pages_placeholder_nonempty (t : List Char) :
    getPages t ≠ [] ∧ ((∀ c ∈ t, c.isWhitespace = true) → getPages t = [vaultEmptyMsg]) :=
  ⟨getPages_ne_nil t, fun h => getPages_of_words_nil t ((words_eq_nil_iff t).mpr h)⟩

/-- C3 witness: the theorem applied to a whitespace-only text. -/
theorem pages_placeholder_nonempty_witness :
    getPages [' ', '\n'] ≠ [] ∧ getPages [' ', '\n'] = [vaultEmptyMsg] :=
  ⟨(pages_placeholder_nonempty [' ', '\n']).1,
   (pages_placeholder_nonempty [' ', '\n']).2 (by decide)⟩

/-! ## Claim C4 -/

/-- C4 (as stated, refuted on the cited Firestore restore path): variant A's
restore (App.jsx:286) issues `scrollToPage(data.page || 0)` with the saved
index unclamped, so a saved page index of 12 against an 8-page document is
passed through as 12, not clamped to the last valid index 7. -/
theorem restore_clamps_cex :
    firestoreRestoreTarget (some 12) = 12 ∧ firestoreRestoreTarget (some 12) ≠ 8 - 1 := by
  decide

/-- C4 (amended): the localStorage restore paths (part_000:200 and
App.jsx:1200) do clamp: whenever the saved page index is at least the
current page count, the scroll target is the last valid index
`pageCount - 1`, which in particular is always in range; variant A's
Firestore restore path, by contrast, passes the saved index through
unclamped. -/
theorem restore_clamps (savedPage : Nat) (t : List Char)
    (h : (getPages t).length ≤ savedPage) :
    safeRestorePage savedPage t = (getPages t).length - 1
    ∧ safeRestorePage savedPage t < (getPages t).length := by
  have hpos : 0 < (getPages t).length := List.length_pos.mpr (getPages_ne_nil t)
  unfold safeRestorePage
  omega

/-- C4 witness: the amended theorem applied to a saved page index of 12
against an 8-page (2000-word) document: the clamped target is page 7. -/
theorem restore_clamps_witness :
    (getPages text2000).length ≤ 12
    ∧ (getPages text2000).length = 8
    ∧ safeRestorePage 12 text2000 = 7
    ∧ safeRestorePage 12 text2000 = (getPages text2000).length - 1
    ∧ safeRestorePage 12 text2000 < (getPages text2000).length := by
  have h := restore_clamps 12 text2000 (by decide)
  exact ⟨by decide, by decide, by decide, h.1, h.2⟩

/-! ## Claims C5 and C6 -/

theorem QUIET_INTERVAL_pos : 0 < QUIET_INTERVAL := by
  norm_num [QUIET_INTERVAL]

/-- Every fired write was armed by one of the effect runs, carries that
run's captured document id and page, fires exactly `QUIET_INTERVAL` after
it, and fires no later than the session end. -/
theorem autosaveWrites_mem (endTime : Nat) :
    ∀ (evs : List PosEvent) (w : PosWrite), w ∈ autosaveWrites endTime evs →
      w.time ≤ endTime ∧ ∃ e ∈ evs, w = ⟨e.time + QUIET_INTERVAL, e.docId, e.page⟩ := by
  intro evs
  induction evs with
  | nil => intro w hw; simp [autosaveWrites] at hw
  | cons e rest ih =>
    intro w hw
    rcases rest with _ | ⟨e2, rest⟩
    · by_cases hfire : e.time + QUIET_INTERVAL ≤ endTime
      · simp only [autosaveWrites, hfire, if_true, List.mem_singleton] at hw
        subst hw
        exact ⟨hfire, e, by simp, rfl⟩
      · simp [autosaveWrites, hfire] at hw
    · by_cases hcancel : e2.time < e.time + QUIET_INTERVAL
      · rw [show autosaveWrites endTime (e :: e2 :: rest) =
            autosaveWrites endTime (e2 :: rest) by simp [autosaveWrites, hcancel]] at hw
        obtain ⟨h1, f, hf, rfl⟩ := ih w hw
        exact ⟨h1, f, List.mem_cons_of_mem e hf, rfl⟩
      · by_cases hfire : e.time + QUIET_INTERVAL ≤ endTime
        · rw [show autosaveWrites endTime (e :: e2 :: rest) =
              ⟨e.time + QUIET_INTERVAL, e.docId, e.page⟩ ::
                autosaveWrites endTime (e2 :: rest) by
            simp [autosaveWrites, hcancel, hfire]] at hw
          rcases List.mem_cons.mp hw with rfl | hw
          · exact ⟨hfire, e, by simp, rfl⟩
          · obtain ⟨h1, f, hf, rfl⟩ := ih w hw
            exact ⟨h1, f, List.mem_cons_of_mem e hf, rfl⟩
        · rw [show autosaveWrites endTime (e :: e2 :: rest) =
              autosaveWrites endTime (e2 :: rest) by
            simp [autosaveWrites, hcancel, hfire]] at hw
          obtain ⟨h1, f, hf, rfl⟩ := ih w hw
          exact ⟨h1, f, List.mem_cons_of_mem e hf, rfl⟩

/-- C5: if every page-change effect run occurs within the quiet interval of
the previous one and the session lasts past the last run's fire time, then
exactly one remote write is issued; it fires exactly one full quiet
interval after the last run and carries the document id and page index of
that last run (each new run having cancelled the previously pending
write). -/
theorem autosave_coalesces (e : PosEvent) (evs : List PosEvent) (endTime : Nat)
    (hrapid : List.Chain' (fun a b => b.time < a.time + QUIET_INTERVAL) (e :: evs))
    (hend : (evs.getLastD e).time + QUIET_INTERVAL ≤ endTime) :
    autosaveWrites endTime (e :: evs) =
      [⟨(evs.getLastD e).time + QUIET_INTERVAL,
        (evs.getLastD e).docId, (evs.getLastD e).page⟩] := by
  induction evs generalizing e with
  | nil =>
    simp only [List.getLastD] at hend ⊢
    simp [autosaveWrites, hend]
  | cons e2 rest ih =>
    have h12 : e2.time < e.time + QUIET_INTERVAL := (List.chain'_cons.mp hrapid).1
    have hrapid2 := (List.chain'_cons.mp hrapid).2
    rw [List.getLastD_cons] at hend ⊢
    rw [show autosaveWrites endTime (e :: e2 :: rest) =
        autosaveWrites endTime (e2 :: rest) by simp [autosaveWrites, h12]]
    exact ih e2 hrapid2 hend

/-- C5 witness: the theorem applied to the spec's scenario — page-change
runs for pages 2, 3, 4, 5 at 200 ms intervals (all on document 1) produce
exactly one write, at 600 + 2000 = 2600 ms, carrying page 5. -/
theorem autosave_coalesces_witness :
    autosaveWrites 10000 [⟨0, 1, 2⟩, ⟨200, 1, 3⟩, ⟨400, 1, 4⟩, ⟨600, 1, 5⟩] =
      [⟨2600, 1, 5⟩] := by
  have h := autosave_coalesces ⟨0, 1, 2⟩ [⟨200, 1, 3⟩, ⟨400, 1, 4⟩, ⟨600, 1, 5⟩] 10000
    (by norm_num [List.chain'_cons, QUIET_INTERVAL]) (by decide)
  simpa using h

/-- Prepending an earlier event does not change the latest event before a
later instant. -/
theorem activeDocAt_cons (e : PosEvent) (l : List PosEvent) (t : Nat)
    (he : e.time < t) (hex : ∃ x ∈ l, x.time < t) :
    activeDocAt (e :: l) t = activeDocAt l t := by
  unfold activeDocAt
  rw [List.filter_cons, if_pos (by simpa using he)]
  obtain ⟨x, hx, hxt⟩ := hex
  have hne : l.filter (fun a => a.time < t) ≠ [] := by
    intro hnil
    rw [List.filter_eq_nil_iff] at hnil
    exact hnil x hx (by simpa using hxt)
  rcases hl : l.filter (fun a => a.time < t) with _ | ⟨y, ys⟩
  · exact absurd hl hne
  · rw [hl, List.getLast?_cons_cons]

/-- C6: in a session whose effect runs are strictly ordered in time, every
remote write that actually fires does so no later than the session end and
carries the id of the document active at its fire time: a pending write for
a previous document is cancelled by a document switch (or session end)
before its fire time, so a stale write never lands after a different
document has become active. -/
theorem autosave_no_stale_write (evs : List PosEvent) (endTime : Nat)
    (hsorted : List.Pairwise (fun a b => a.time < b.time) evs) :
    ∀ w ∈ autosaveWrites endTime evs,
      w.time ≤ endTime ∧ activeDocAt evs w.time = some w.docId := by
  induction evs with
  | nil => intro w hw; simp [autosaveWrites] at hw
  | cons e rest ih =>
    have hsorted1 := (List.pairwise_cons.mp hsorted).1
    have hsorted2 := (List.pairwise_cons.mp hsorted).2
    -- any write of the tail run sequence is also a write of the whole one
    have hlift : ∀ w ∈ autosaveWrites endTime rest,
        w.time ≤ endTime ∧ activeDocAt (e :: rest) w.time = some w.docId := by
      intro w hw
      obtain ⟨hle, f, hf, hwe⟩ := autosaveWrites_mem endTime rest w hw
      have hwt : w.time = f.time + QUIET_INTERVAL := by rw [hwe]
      have hfe : e.time < f.time := hsorted1 f hf
      have hqp := QUIET_INTERVAL_pos
      rw [activeDocAt_cons e rest _ (by omega) ⟨f, hf, by omega⟩]
      exact ⟨hle, (ih hsorted2 _ hw).2⟩
    intro w hw
    rcases rest with _ | ⟨e2, rest⟩
    · by_cases hfire : e.time + QUIET_INTERVAL ≤ endTime
      · simp only [autosaveWrites, hfire, if_true, List.mem_singleton] at hw
        subst hw
        refine ⟨hfire, ?_⟩
        have he : e.time < e.time + QUIET_INTERVAL := by
          have := QUIET_INTERVAL_pos
          omega
        simp [activeDocAt, List.filter, he]
      · simp [autosaveWrites, hfire] at hw
    · by_cases hcancel : e2.time < e.time + QUIET_INTERVAL
      · rw [show autosaveWrites endTime (e :: e2 :: rest) =
            autosaveWrites endTime (e2 :: rest) by simp [autosaveWrites, hcancel]] at hw
        exact hlift w hw
      · by_cases hfire : e.time + QUIET_INTERVAL ≤ endTime
        · rw [show autosaveWrites endTime (e :: e2 :: rest) =
              ⟨e.time + QUIET_INTERVAL, e.docId, e.page⟩ ::
                autosaveWrites endTime (e2 :: rest) by
            simp [autosaveWrites, hcancel, hfire]] at hw
          rcases List.mem_cons.mp hw with rfl | hw
          · refine ⟨hfire, ?_⟩
            have he : e.time < e.time + QUIET_INTERVAL := by
              have := QUIET_INTERVAL_pos
              omega
            have he2 : ¬ e2.time < e.time + QUIET_INTERVAL := hcancel
            have hrest : ∀ r ∈ rest, ¬ r.time < e.time + QUIET_INTERVAL := by
              intro r hr
              have := (List.pairwise_cons.mp hsorted2).1 r hr
              omega
            unfold activeDocAt
            rw [List.filter_cons, if_pos (by simpa using he),
              List.filter_cons, if_neg (by simpa using he2),
              List.filter_eq_nil_iff.mpr (by
                intro r hr
                simpa using hrest r hr)]
            rfl
          · exact hlift w hw
        · rw [show autosaveWrites endTime (e :: e2 :: rest) =
              autosaveWrites endTime (e2 :: rest) by
            simp [autosaveWrites, hcancel, hfire]] at hw
          exact hlift w hw

/-- C6 witness: the theorem applied to a document switch 500 ms after a
page change on the old document: the pending write for document 1 is
cancelled, only the write for document 2 lands (at 3500 ms), and at that
instant the active document is document 2. -/
theorem autosave_no_stale_write_witness :
    autosaveWrites 10000 [⟨1000, 1, 3⟩, ⟨1500, 2, 0⟩] = [⟨3500, 2, 0⟩]
    ∧ (⟨3500, 2, 0⟩ : PosWrite).time ≤ 10000
    ∧ activeDocAt [⟨1000, 1, 3⟩, ⟨1500, 2, 0⟩] 3500 = some 2 := by
  refine ⟨by decide, ?_, ?_⟩
  · exact (autosave_no_stale_write [⟨1000, 1, 3⟩, ⟨1500, 2, 0⟩] 10000 (by decide)
      ⟨3500, 2, 0⟩ (by decide)).1
  · exact (autosave_no_stale_write [⟨1000, 1, 3⟩, ⟨1500, 2, 0⟩] 10000 (by decide)
      ⟨3500, 2, 0⟩ (by decide)).2

/-! ## Claim C8 -/

/-- C8 (as stated, refuted at a reachable session state): the localStorage
initializer `Number(saved) || 0` performs no range check, so a session can
start — a reachable state, with the restored saved position in use — with
`currentPage = 12` while the restored text paginates to a single page;
12 is not within `[0, pageCount - 1]`. -/
theorem page_in_range_cex :
    ¬ (runSession (initState [] none 12) []).page <
        (getPages (runSession (initState [] none 12) []).text).length := by
  decide

/-- C8 (amended): the page-index state itself is not kept in range — a
restored saved page index may exceed the page count until the next
viewport event. What the code guarantees instead: the scroll target
derived from the stored page (`Math.min(page, pageCount - 1)`,
App.jsx:1200) is always within range; a viewport intersection event sets
the page to the observed in-range index without touching the text; and
deleting the currently referenced document clears the stored document id
(the position no longer references the deleted document) while the page
number is left untouched — never clamped to the deleted document's
range. -/
theorem page_handling (s : RState) (idx id : Nat) :
    safeRestorePage s.page s.text < (getPages s.text).length
    ∧ (idx < (getPages s.text).length →
        (step s (.observe idx)).page = idx ∧ (step s (.observe idx)).text = s.text)
    ∧ (s.docId = some id →
        (step s (.delete id)).docId = none ∧ (step s (.delete id)).page = s.page) := by
  refine ⟨?_, fun h => ?_, fun h => ?_⟩
  · have hpos : 0 < (getPages s.text).length := List.length_pos.mpr (getPages_ne_nil s.text)
    unfold safeRestorePage
    omega
  · simp [step, h]
  · simp [step, h]

/-- C8 witness: the amended theorem applied to a state holding document 5
on a one-page text with an out-of-range stored page 12. -/
theorem page_handling_witness :
    safeRestorePage 12 ['a'] < (getPages ['a']).length
    ∧ (step ⟨['a'], some 5, 12⟩ (.observe 0)).page = 0
    ∧ (step ⟨['a'], some 5, 12⟩ (.observe 0)).text = ['a']
    ∧ (step ⟨['a'], some 5, 12⟩ (.delete 5)).docId = none
    ∧ (step ⟨['a'], some 5, 12⟩ (.delete 5)).page = 12 := by
  have h := page_handling ⟨['a'], some 5, 12⟩ 0 5
  have h2 := h.2.1 (by decide)
  have h3 := h.2.2 rfl
  exact ⟨h.1, h2.1, h2.2, h3.1, h3.2⟩

/-! ## Claim C9 -/

/-- C9 (as stated, refuted on a three-call trace): the limiter's timestamp
is updated only by invocations that pass the gate, so after an accepted
call at 100000 ms and a rejected call at 101000 ms, the invocation at
101600 ms — only 600 ms after the previous invocation, less than
`AI_CALL_DELAY` — proceeds to the network, because it is measured against
the last accepted call. -/
theorem rate_limiter_cex :
    runCalls true true ⟨0⟩ [100000, 101000, 101600] =
      [.request, .rateLimited 1, .request]
    ∧ 101600 - 101000 < AI_CALL_DELAY := by
  decide

/-- C9 (amended): the limiter gates calls relative to the last invocation
that proceeded to the API: an invocation less than `AI_CALL_DELAY` after it
makes no network request, leaves the limiter state unchanged, and returns a
rate-limit wait message quoting `ceil(waitMs / 1000)` seconds; an
invocation at least `AI_CALL_DELAY` after it, with an API key configured
and a document loaded, proceeds to the API and records its own time. -/
theorem rate_limiter_gate (hasKey hasText : Bool) (now : Nat) (s : AiSession) :
    (now - s.lastAiCall < AI_CALL_DELAY →
      (callAi hasKey hasText now s).1 =
        .rateLimited ((AI_CALL_DELAY - (now - s.lastAiCall) + 999) / 1000)
      ∧ (callAi hasKey hasText now s).2 = s)
    ∧ (AI_CALL_DELAY ≤ now - s.lastAiCall → hasKey = true → hasText = true →
      (callAi hasKey hasText now s).1 = .request
      ∧ (callAi hasKey hasText now s).2 = ⟨now⟩) := by
  constructor
  · intro h
    simp [callAi, h]
  · intro h hk ht
    simp [callAi, Nat.not_lt.mpr h, hk, ht]

/-- C9 witness: the amended theorem applied to a blocked call 1000 ms after
an accepted call (wait message of 1 second, state unchanged) and to an
accepted call 5000 ms after the limiter's start state. -/
theorem rate_limiter_gate_witness :
    ((1000 : Nat) - (0 : Nat) < AI_CALL_DELAY
      ∧ (callAi true true 1000 ⟨0⟩).1 = .rateLimited 1
      ∧ (callAi true true 1000 ⟨0⟩).2 = ⟨0⟩)
    ∧ (AI_CALL_DELAY ≤ (5000 : Nat) - (0 : Nat)
      ∧ (callAi true true 5000 ⟨0⟩).1 = .request
      ∧ (callAi true true 5000 ⟨0⟩).2 = ⟨5000⟩) := by
  refine ⟨⟨by decide, ?_, ?_⟩, ⟨by decide, ?_, ?_⟩⟩
  · have h := ((rate_limiter_gate true true 1000 ⟨0⟩).1 (by decide)).1
    simpa using h
  · exact ((rate_limiter_gate true true 1000 ⟨0⟩).1 (by decide)).2
  · exact ((rate_limiter_gate true true 5000 ⟨0⟩).2 (by decide) rfl rfl).1
  · exact ((rate_limiter_gate true true 5000 ⟨0⟩).2 (by decide) rfl rfl).2

/-! ## Claim C10 -/

/-- C10: in both capped upload variants the stored text depends only on the
first 50 (respectively 100) PDF pages — the text of any pages beyond the
cap is silently omitted — and on a concrete 51-page PDF the 50-capped
extraction differs from the full extraction, so the stored document is not
guaranteed to contain the whole file. -/
theorem pdf_extraction_capped (pdfPages : List (List (List Char))) :
    extractedPdfText 50 pdfPages = extractedPdfText 50 (pdfPages.take 50)
    ∧ extractedPdfText 100 pdfPages = extractedPdfText 100 (pdfPages.take 100)
    ∧ extractedPdfText 50 (List.replicate 51 [['a']]) ≠
        extractedPdfText 51 (List.replicate 51 [['a']]) := by
  refine ⟨?_, ?_, by decide⟩
  · unfold extractedPdfText
    rw [List.take_take]
    norm_num
  · unfold extractedPdfText
    rw [List.take_take]
    norm_num

end NovelQuest

